import Mathlib

/-!
Formal model of the IBEX35 factor-model analysis pipeline (`main.py`).

The program is a linear pandas pipeline:
  1. download daily closing prices for 5 stocks plus the IBEX index and drop
     every row with a missing value (`prices = data["Close"].dropna()`);
  2. resample to month end, take the last price per month, percent-change,
     drop the leading NaN row, relabel dates to month start
     (`monthly_returns`, lines 46-50);
  3. load the Fama-French Europe factor CSV: strip the date token, keep rows
     matching a six-digit pattern, convert via `%Y%m`, coerce the four factor
     columns to numbers, drop incomplete rows, divide by 100 (lines 59-80);
  4. slice the return series to the factor date range, concatenate column-wise
     and drop incomplete rows (`data_merged`, lines 91-105);
  5. derive excess returns and filter valid stocks (lines 110-122);
  6. run OLS regressions (CAPM and three-factor) per valid stock and emit
     result tables and one scatter chart per valid stock (lines 130-227).

Modelling conventions: prices and returns are rationals (the floating point
arithmetic of the source is modelled exactly over `ℚ`; behaviour at zero
prices, where floats produce infinities, is outside the regime the theorems
address and is guarded by positivity hypotheses where relevant); missing
values (`NaN`) are `Option.none`; a raised pandas exception is `Option.none`
at the result type of the modelled stage.
-/

/-- A calendar date, as carried by the DatetimeIndex of the price frame. -/
structure Date where
  year : Nat
  month : Nat
  day : Nat
deriving DecidableEq

/-- The month counter of a date: months since year 0 (month is 1-based). -/
def Date.monthIdx (d : Date) : Nat := d.year * 12 + (d.month - 1)

/-- A sort key compatible with chronological order for valid dates
(month in 1..12, day in 1..31). -/
def Date.key (d : Date) : Nat := d.monthIdx * 64 + d.day

/-- A well-formed calendar date. -/
def Date.valid (d : Date) : Prop :=
  1 ≤ d.month ∧ d.month ≤ 12 ∧ 1 ≤ d.day ∧ d.day ≤ 31

instance (d : Date) : Decidable d.valid := by
  unfold Date.valid; infer_instance

/-- The first calendar day of the month with counter `mi`
(`to_period("M").to_timestamp()` relabelling). -/
def monthStartOfIdx (mi : Nat) : Date := ⟨mi / 12, mi % 12 + 1, 1⟩

/-! ### Monthly resampling (`main.py` lines 46-50)

`monthly_prices = prices.resample("M").last()` produces one bin per calendar
month between the first and the last index date, holding the last price
observed in that month (`NaN` for a month with no observation);
`monthly_prices.pct_change()` forward-fills missing bins (the pandas default
`fill_method="pad"`) and divides consecutive entries; `.dropna()` removes the
leading all-NaN row; the index is then relabelled to month starts. -/

/-- The month counters spanned by the index of `rows`, first to last. -/
def spanMonths {α : Type} (rows : List (Date × α)) : List Nat :=
  match rows.head?, rows.getLast? with
  | some a, some b =>
      List.range' a.1.monthIdx (b.1.monthIdx - a.1.monthIdx + 1)
  | _, _ => []

/-- The last value observed in month `mi` (`resample("M").last()` for one
bin); `none` when the month has no observation. -/
def lastInMonth {α : Type} (rows : List (Date × α)) (mi : Nat) : Option α :=
  ((rows.filter (fun r => r.1.monthIdx == mi)).getLast?).map (fun r => r.2)

/-- `prices.resample("M").last()`: one entry per spanned month. -/
def resampleLast {α : Type} (rows : List (Date × α)) : List (Nat × Option α) :=
  (spanMonths rows).map (fun mi => (mi, lastInMonth rows mi))

/-- Forward fill (`fill_method="pad"` inside `pct_change`). -/
def padRows {α : Type} : Option α → List (Nat × Option α) → List (Nat × Option α)
  | _, [] => []
  | carry, (mi, none) :: rest => (mi, carry) :: padRows carry rest
  | _, (mi, some v) :: rest => (mi, some v) :: padRows (some v) rest

/-- The tail of `pct_change`: combine the previous and current entries with
`f`, producing `none` when either is missing. -/
def pctGo {α : Type} (f : α → α → α) :
    (Nat × Option α) → List (Nat × Option α) → List (Nat × Option α)
  | _, [] => []
  | prev, cur :: rest =>
      (cur.1,
        match prev.2, cur.2 with
        | some p, some c => some (f p c)
        | _, _ => none) :: pctGo f cur rest

/-- `pct_change`: the first entry has no predecessor and is `NaN`. -/
def pctRows {α : Type} (f : α → α → α) :
    List (Nat × Option α) → List (Nat × Option α)
  | [] => []
  | x :: rest => (x.1, none) :: pctGo f x rest

/-- The whole monthly pipeline for one value type: resample to months, pad,
percent-change with `f`, drop missing rows, relabel to month starts. -/
def monthlyFrom {α : Type} (f : α → α → α) (rows : List (Date × α)) :
    List (Date × α) :=
  (pctRows f (padRows none (resampleLast rows))).filterMap
    (fun p => p.2.map (fun v => (monthStartOfIdx p.1, v)))

/-- Simple return of consecutive prices: `(cur - prev) / prev`. -/
def pctQ (prev cur : ℚ) : ℚ := (cur - prev) / prev

/-- `monthly_returns` for a single ticker column. -/
def monthlySeries (rows : List (Date × ℚ)) : List (Date × ℚ) :=
  monthlyFrom pctQ rows

/-- Componentwise simple return for a whole price row. -/
def pctL (prev cur : List ℚ) : List ℚ :=
  List.zipWith (fun p c => (c - p) / p) prev cur

/-- `monthly_returns` for the full multi-ticker price table (all columns
share the same index, so the column-wise pandas operations act row-wise). -/
def monthlyTable (rows : List (Date × List ℚ)) : List (Date × List ℚ) :=
  monthlyFrom pctL rows

/-- The distinct calendar months carrying at least one observation. -/
def observedMonths {α : Type} (rows : List (Date × α)) : List Nat :=
  (rows.map (fun r => r.1.monthIdx)).dedup

/-- Convenience accessor for theorem statements: the last price of month
`mi`, defaulting to `0` when the month has no observation (the theorems only
use it under hypotheses that guarantee an observation exists). -/
def lastPriceD (rows : List (Date × ℚ)) (mi : Nat) : ℚ :=
  (lastInMonth rows mi).getD 0

/-! ### Joint price filtering (`main.py` line 38)

`prices = data["Close"].dropna()` keeps exactly the rows in which every
ticker (stocks and index alike) has a price. -/

/-- `data["Close"].dropna()`: keep complete rows, extract the values. -/
def pricesOf (raw : List (Date × List (Option ℚ))) : List (Date × List ℚ) :=
  (raw.filter (fun r => r.2.all (fun o => o.isSome))).map
    (fun r => (r.1, r.2.reduceOption))

/-- The daily price series of ticker column `j`, as passed downstream. -/
def tickerSeries (j : Nat) (t : List (Date × List ℚ)) : List (Date × ℚ) :=
  t.filterMap (fun r => r.2[j]?.map (fun v => (r.1, v)))

/-! ### Factor loader (`main.py` lines 59-80) -/

/-- The six-digit year-month pattern of `str.match(regex)` with the pattern
anchored on both sides, on the stripped token (ASCII digits; the claims and
the factor file use ASCII tokens only). -/
def isSixDigits (s : String) : Bool :=
  s.length == 6 && s.toList.all Char.isDigit

/-- Python `str.strip()`: remove leading and trailing whitespace (the file's
tokens carry at most ASCII whitespace). -/
def pyStrip (s : String) : String :=
  ⟨((s.data.dropWhile Char.isWhitespace).reverse.dropWhile
      Char.isWhitespace).reverse⟩

/-- The numeric value of a non-empty all-digit character run. -/
def digitsVal? (cs : List Char) : Option Nat :=
  if cs.length > 0 && cs.all Char.isDigit then
    some (cs.foldl (fun acc c => acc * 10 + (c.toNat - 48)) 0)
  else none

/-- `pd.to_datetime(tok, format="%Y%m")`: four-digit year then two-digit
month; a month outside 01..12 does not match the format and raises
(modelled as `none`). The resulting timestamp is the first of the month. -/
def parseYYYYMM (s : String) : Option Date :=
  match digitsVal? (s.data.take 4), digitsVal? (s.data.drop 4) with
  | some y, some m => if 1 ≤ m ∧ m ≤ 12 then some ⟨y, m, 1⟩ else none
  | _, _ => none

/-- Whether a token is accepted by the `%Y%m` conversion. -/
def validYM (s : String) : Bool := (parseYYYYMM s).isSome

/-- `pd.to_numeric(v, errors="coerce")` for the plain decimal literals of the
factor file: optional sign, integer part, optional fractional part
(scientific notation does not occur in the file and is not modelled);
anything else coerces to missing. -/
def parseDecimal? (s : String) : Option ℚ :=
  let t := (pyStrip s).data
  let sign : ℚ := if t.head? = some ('-') then -1 else 1
  let body :=
    if t.head? = some ('-') || t.head? = some ('+') then t.drop 1 else t
  match body.splitOn ('.') with
  | [ip] => (digitsVal? ip).map (fun n => sign * n)
  | [ip, fp] =>
      if ip.length == 0 && fp.length == 0 then none
      else
        match (if ip.length == 0 then some 0 else digitsVal? ip),
              (if fp.length == 0 then some 0 else digitsVal? fp) with
        | some n, some f =>
            some (sign * ((n : ℚ) + (f : ℚ) / ((10 : ℚ) ^ fp.length)))
        | _, _ => none
  | _ => none

/-- The four factor columns `Mkt-RF`, `SMB`, `HML`, `RF`, as decimals. -/
structure FQuad where
  mkt : ℚ
  smb : ℚ
  hml : ℚ
  rf : ℚ
deriving DecidableEq

/-- Parse the four factor cells of one row and scale percent to decimal
(`ff = ff / 100.0`); `none` when any cell fails to parse (the row is then
dropped by `ff.dropna()`). -/
def numericQuad (v : String × String × String × String) : Option FQuad :=
  match parseDecimal? v.1, parseDecimal? v.2.1,
        parseDecimal? v.2.2.1, parseDecimal? v.2.2.2 with
  | some a, some b, some c, some d => some ⟨a / 100, b / 100, c / 100, d / 100⟩
  | _, _, _, _ => none

/-- One raw CSV row: the date token followed by the four factor cells. -/
abbrev FRow : Type := String × String × String × String × String

/-- The factor loader, lines 59-80 fused into one pass per row: strip the
token, keep the row only when the stripped token is six digits
(`str.match` filter); convert the token with `%Y%m` - a retained token the
format rejects raises `ValueError` for the whole load (`none` overall);
parse the factor cells, dropping rows with an unparsable cell
(`to_numeric(errors="coerce")` then `dropna()`), and scale by `1/100`. -/
def factorLoad : List FRow → Option (List (Date × FQuad))
  | [] => some []
  | r :: rest =>
      if isSixDigits (pyStrip r.1) then
        match parseYYYYMM (pyStrip r.1) with
        | none => none
        | some d =>
            (factorLoad rest).map (fun out =>
              match numericQuad r.2 with
              | some q => (d, q) :: out
              | none => out)
      else factorLoad rest

/-! ### Aligner / merger (`main.py` lines 87-105)

`stock_returns` and `index_returns` are sliced to the factor date range
(`.loc[ff.index.min() : ff.index.max()]`), concatenated column-wise with the
factor table on the union of their date indexes, and every row with a
missing value in any column is dropped. Index operations compare timestamps,
modelled through `Date.key`. -/

/-- Insert a date into a key-sorted list. -/
def insertSorted (d : Date) : List Date → List Date
  | [] => [d]
  | x :: xs => if d.key ≤ x.key then d :: x :: xs else x :: insertSorted d xs

/-- Sort a list of dates chronologically. -/
def sortDates (l : List Date) : List Date := l.foldr insertSorted []

/-- Collapse adjacent dates with equal keys (index union is a set). -/
def dedupKeys : List Date → List Date
  | [] => []
  | x :: xs =>
      match xs with
      | [] => [x]
      | y :: _ =>
          if x.key == y.key then dedupKeys xs else x :: dedupKeys xs

/-- The sorted union of the three date indexes (`pd.concat(axis=1)` outer
join). -/
def unionDates (s i f : List Date) : List Date :=
  dedupKeys (sortDates (s ++ i ++ f))

/-- The stock-return row at date `d`, when present. -/
def stockLookup (sRet : List (Date × List ℚ)) (d : Date) : Option (List ℚ) :=
  (sRet.find? (fun r => r.1.key == d.key)).map (fun r => r.2)

/-- The index return at date `d`, when present. -/
def idxLookup (iRet : List (Date × ℚ)) (d : Date) : Option ℚ :=
  (iRet.find? (fun r => r.1.key == d.key)).map (fun r => r.2)

/-- The factor row at date `d`, when present. -/
def ffLookup (ff : List (Date × FQuad)) (d : Date) : Option FQuad :=
  (ff.find? (fun r => r.1.key == d.key)).map (fun r => r.2)

/-- `.loc[ff.index.min() : ff.index.max()]` on a chronologically sorted
unique index: keep the rows whose date lies in the closed range. (The source
never reaches this point with an empty factor table in the regimes the
theorems address; the empty case is modelled as an empty result.) -/
def sliceToFF {α : Type} (ff : List (Date × FQuad)) (rows : List (Date × α)) :
    List (Date × α) :=
  match (ff.map (fun r => r.1.key)).min?, (ff.map (fun r => r.1.key)).max? with
  | some lo, some hi => rows.filter (fun r => lo ≤ r.1.key && r.1.key ≤ hi)
  | _, _ => []

/-- One complete row of `data_merged`: the date, the stock return columns,
the `IBEX` column, and the four factor columns. -/
structure PanelRow where
  date : Date
  stockRets : List ℚ
  ibex : ℚ
  facs : FQuad
deriving DecidableEq

/-- `data_merged = pd.concat([stock_returns, index_returns, ff], axis=1)
.dropna()`: for every date of the union index, keep the row exactly when
every source has a value there. -/
def dataMerged (sRet : List (Date × List ℚ)) (iRet : List (Date × ℚ))
    (ff : List (Date × FQuad)) : List PanelRow :=
  (unionDates (sRet.map (fun r => r.1)) (iRet.map (fun r => r.1))
      (ff.map (fun r => r.1))).filterMap
    (fun d =>
      match stockLookup sRet d, idxLookup iRet d, ffLookup ff d with
      | some sv, some iv, some fv => some ⟨d, sv, iv, fv⟩
      | _, _, _ => none)

/-! ### Excess returns and valid stocks (`main.py` lines 110-122) -/

/-- `excess_ibex = data_merged["IBEX"] - data_merged["RF"]`. -/
def excessIbex (panel : List PanelRow) : List ℚ :=
  panel.map (fun r => r.ibex - r.facs.rf)

/-- The excess-return column of stock column `j`
(`excess_stock_returns[s]` with missing entries dropped, as in
`excess_stock_returns[s].dropna()`). -/
def excessCol (j : Nat) (panel : List PanelRow) : List ℚ :=
  panel.filterMap (fun r => r.stockRets[j]?.map (fun v => v - r.facs.rf))

/-- The `SMB` regressor column of the merged panel. -/
def smbCol (panel : List PanelRow) : List ℚ := panel.map (fun r => r.facs.smb)

/-- The `HML` regressor column of the merged panel. -/
def hmlCol (panel : List PanelRow) : List ℚ := panel.map (fun r => r.facs.hml)

/-- The configured stocks paired with their column position, restricted to
those whose excess-return column is non-empty after dropping missing values
(`valid_stocks = [s for s in stocks if not ...dropna().empty]`). -/
def validPairs (names : List String) (panel : List PanelRow) :
    List (Nat × String) :=
  names.enum.filter (fun p => !(excessCol p.1 panel).isEmpty)

/-- The `valid_stocks` list, in the insertion order of `stocks`. -/
def validStocks (names : List String) (panel : List PanelRow) : List String :=
  (validPairs names panel).map (fun p => p.2)

/-! ### Ordinary least squares (`main.py` lines 130-179)

`sm.OLS(y, X).fit()` with a full-rank design returns the normal-equation
solution; for the CAPM design (a constant column and one regressor) that is
the textbook simple-regression closed form, written here over `ℚ`. -/

/-- Arithmetic mean of a column. -/
def qmean (l : List ℚ) : ℚ := l.sum / l.length

/-- Centered sum of squares of the regressor. -/
def sxx (xs : List ℚ) : ℚ := (xs.map (fun x => (x - qmean xs) ^ 2)).sum

/-- Centered cross product of regressor and response. -/
def sxy (xs ys : List ℚ) : ℚ :=
  ((xs.zip ys).map (fun p => (p.1 - qmean xs) * (p.2 - qmean ys))).sum

/-- The slope estimate of `OLS(y, [const, x])`. -/
def olsBeta (xs ys : List ℚ) : ℚ := sxy xs ys / sxx xs

/-- The intercept estimate of `OLS(y, [const, x])`. -/
def olsAlpha (xs ys : List ℚ) : ℚ := qmean ys - olsBeta xs ys * qmean xs

/-- The residual sum of squares of the fitted CAPM model. -/
def ssr (xs ys : List ℚ) : ℚ :=
  ((xs.zip ys).map
    (fun p => (p.2 - olsAlpha xs ys - olsBeta xs ys * p.1) ^ 2)).sum

/-- The centered total sum of squares of the response. -/
def sst (ys : List ℚ) : ℚ := (ys.map (fun y => (y - qmean ys) ^ 2)).sum

/-- `model.rsquared`: one minus the ratio of residual to total sum of
squares (the model has a constant, so statsmodels centers the total). -/
def rsquared (xs ys : List ℚ) : ℚ := 1 - ssr xs ys / sst ys

/-- The residual variance estimate `s² = SSR / (n - 2)` of the CAPM fit. -/
def s2hat (xs ys : List ℚ) : ℚ := ssr xs ys / ((xs.length : ℚ) - 2)

/-- The squared standard error of the slope estimate. -/
def seBetaSq (xs ys : List ℚ) : ℚ := s2hat xs ys / sxx xs

/-- The squared standard error of the intercept estimate. -/
def seAlphaSq (xs ys : List ℚ) : ℚ :=
  s2hat xs ys * (1 / (xs.length : ℚ) + (qmean xs) ^ 2 / sxx xs)

/-- The CAPM design matrix `X = DataFrame({"const": 1, "IBEX": excess_ibex})`
(lines 134-137): each row is the pair (constant, regressor). -/
def capmDesign (ex : List ℚ) : List (ℚ × ℚ) := ex.map (fun x => (1, x))

/-- The constant-column test of `sm.add_constant`: a column counts as a
constant when its peak-to-peak range is zero (all entries equal) and every
entry is nonzero (`np.ptp(x, axis=0) == 0` and `np.all(x != 0, axis=0)`).
The column count is read off the first row; the zero-row case, on which
`np.ptp` raises, is unreachable in the source (no regression runs on an
empty panel) and is modelled as no constant found. -/
def hasConstantColumn (rows : List (List ℚ)) : Bool :=
  (List.range ((rows.head?.map List.length).getD 0)).any (fun j =>
    match rows.filterMap (fun r => r[j]?) with
    | [] => false
    | v :: rest =>
        rest.all (fun x => x == v) && (v :: rest).all (fun x => x != 0))

/-- `sm.add_constant` (line 169) with its default `has_constant="skip"`:
the constant column is prepended only when the design has no existing
constant nonzero column; otherwise the design is returned unchanged (and
the source then fails at `model.params["const"]`). -/
def addConstant (rows : List (List ℚ)) : List (List ℚ) :=
  if hasConstantColumn rows then rows else rows.map (fun r => 1 :: r)

/-! ### Three-factor ordinary least squares (`main.py` lines 160-179)

The design has four columns (constant, excess index return, `SMB`, `HML`).
With a full-rank design, `sm.OLS(y, X).fit()` solves the normal equations
`(XᵀX) b = Xᵀy`; the solution is written here by Cramer's rule over `ℚ`. -/

/-- Determinant of an explicit 2 by 2 matrix. -/
def det2 (a b c d : ℚ) : ℚ := a * d - b * c

/-- Determinant of an explicit 3 by 3 matrix, rows listed left to right. -/
def det3 (a b c d e f g h i : ℚ) : ℚ :=
  a * det2 e f h i - b * det2 d f g i + c * det2 d e g h

/-- Determinant of an explicit 4 by 4 matrix, rows listed left to right. -/
def det4 (a b c d e f g h i j k l m n o p : ℚ) : ℚ :=
  a * det3 f g h j k l n o p - b * det3 e g h i k l m o p +
    c * det3 e f h i j l m n p - d * det3 e f g i j k m n o

/-- Sum of a function over the zipped observation lists. -/
def qdot (f : ℚ × ℚ × ℚ × ℚ → ℚ) (obs : List (ℚ × ℚ × ℚ × ℚ)) : ℚ :=
  (obs.map f).sum

/-- The three-factor OLS fit: observations are tuples
`(excess index, SMB, HML, excess stock return)`; the result is
`(alpha, beta_ibex, smb_coef, hml_coef, r2)` by Cramer's rule on the
normal equations of the design `[const, EX_IBEX, SMB, HML]`. -/
def ffFit (obs : List (ℚ × ℚ × ℚ × ℚ)) : ℚ × ℚ × ℚ × ℚ × ℚ :=
  let n : ℚ := obs.length
  let se := qdot (fun o => o.1) obs
  let ss := qdot (fun o => o.2.1) obs
  let sh := qdot (fun o => o.2.2.1) obs
  let sy := qdot (fun o => o.2.2.2) obs
  let see := qdot (fun o => o.1 * o.1) obs
  let ses := qdot (fun o => o.1 * o.2.1) obs
  let seh := qdot (fun o => o.1 * o.2.2.1) obs
  let sss := qdot (fun o => o.2.1 * o.2.1) obs
  let ssh := qdot (fun o => o.2.1 * o.2.2.1) obs
  let shh := qdot (fun o => o.2.2.1 * o.2.2.1) obs
  let sey := qdot (fun o => o.1 * o.2.2.2) obs
  let ssy := qdot (fun o => o.2.1 * o.2.2.2) obs
  let shy := qdot (fun o => o.2.2.1 * o.2.2.2) obs
  let dd := det4 n se ss sh
               se see ses seh
               ss ses sss ssh
               sh seh ssh shh
  let a := det4 sy se ss sh
               sey see ses seh
               ssy ses sss ssh
               shy seh ssh shh / dd
  let be := det4 n sy ss sh
               se sey ses seh
               ss ssy sss ssh
               sh shy ssh shh / dd
  let bs := det4 n se sy sh
               se see sey seh
               ss ses ssy ssh
               sh seh shy shh / dd
  let bh := det4 n se ss sy
               se see ses sey
               ss ses sss ssy
               sh seh ssh shy / dd
  let ssres := qdot
    (fun o => (o.2.2.2 - a - be * o.1 - bs * o.2.1 - bh * o.2.2.1) ^ 2) obs
  let sstot := qdot (fun o => (o.2.2.2 - sy / n) ^ 2) obs
  (a, be, bs, bh, 1 - ssres / sstot)

/-! ### Result records and reporters (`main.py` lines 141-148, 172-179,
206-227) -/

/-- A cell of a result record. A t-statistic is a floating quotient
`coef / sqrt(se²)` whose square root is irrational; it is stored exactly as
the pair of the coefficient and the squared standard error. -/
inductive CellVal where
  | sval : String → CellVal
  | qval : ℚ → CellVal
  | tval : ℚ → ℚ → CellVal
deriving DecidableEq

/-- One CAPM result record, keys in the insertion order of the source dict
(lines 141-148). -/
def capmRow (s : String) (xs ys : List ℚ) : List (String × CellVal) :=
  [("Stock", CellVal.sval s),
   ("Alpha", CellVal.qval (olsAlpha xs ys)),
   ("Beta_IBEX", CellVal.qval (olsBeta xs ys)),
   ("Alpha_t", CellVal.tval (olsAlpha xs ys) (seAlphaSq xs ys)),
   ("Beta_t", CellVal.tval (olsBeta xs ys) (seBetaSq xs ys)),
   ("R2", CellVal.qval (rsquared xs ys))]

/-- One three-factor result record, keys in the insertion order of the
source dict (lines 172-179). -/
def ffRow (s : String) (ex smb hml ys : List ℚ) : List (String × CellVal) :=
  let fit := ffFit (ex.zip (smb.zip (hml.zip ys)))
  [("Stock", CellVal.sval s),
   ("Alpha", CellVal.qval fit.1),
   ("Beta_IBEX", CellVal.qval fit.2.1),
   ("SMB_coef", CellVal.qval fit.2.2.1),
   ("HML_coef", CellVal.qval fit.2.2.2.1),
   ("R2", CellVal.qval fit.2.2.2.2)]

/-- The column list of the CAPM results file. -/
def capmColumns : List String :=
  ["Stock", "Alpha", "Beta_IBEX", "Alpha_t", "Beta_t", "R2"]

/-- The column list of the three-factor results file. -/
def ff3Columns : List String :=
  ["Stock", "Alpha", "Beta_IBEX", "SMB_coef", "HML_coef", "R2"]

/-- The CAPM result table: one record per valid stock, in list order
(lines 130-148). -/
def capmTable (names : List String) (panel : List PanelRow) :
    List (List (String × CellVal)) :=
  (validPairs names panel).map
    (fun p => capmRow p.2 (excessIbex panel) (excessCol p.1 panel))

/-- The three-factor result table: one record per valid stock, in list
order (lines 160-179). -/
def ffTable (names : List String) (panel : List PanelRow) :
    List (List (String × CellVal)) :=
  (validPairs names panel).map
    (fun p => ffRow p.2 (excessIbex panel) (smbCol panel) (hmlCol panel)
      (excessCol p.1 panel))

/-- The value of the `Stock` column of one record. -/
def rowStock (r : List (String × CellVal)) : Option String :=
  match r.find? (fun c => c.1 == "Stock") with
  | some (_, CellVal.sval s) => some s
  | _ => none

/-- The `Stock` column of a result table. -/
def stockColumn (t : List (List (String × CellVal))) : List String :=
  t.filterMap rowStock

/-- The file name of the scatter chart of one stock (line 224). -/
def chartName (s : String) : String :=
  "figures/jointplot_" ++ s ++ "_244604.png"

/-- The scatter charts produced by the jointplot loop (lines 207-225): one
per valid stock. -/
def scatterCharts (names : List String) (panel : List PanelRow) :
    List String :=
  (validStocks names panel).map chartName

/-! ### End-to-end composition (`main.py` steps 2-7) -/

/-- From the raw download to the merged panel: joint `dropna`, monthly
returns, split into stock and index columns, slice to the factor range,
merge. `names` lists the stock tickers; the index column follows them. -/
def pipelinePanel (names : List String) (raw : List (Date × List (Option ℚ)))
    (ff : List (Date × FQuad)) : List PanelRow :=
  let monthly := monthlyTable (pricesOf raw)
  let sRet := monthly.map (fun r => (r.1, r.2.take names.length))
  let iRet := monthly.filterMap
    (fun r => r.2[names.length]?.map (fun v => (r.1, v)))
  dataMerged (sliceToFF ff sRet) (sliceToFF ff iRet) ff

/-- The `valid_stocks` list of a full pipeline run. -/
def pipelineValidStocks (names : List String)
    (raw : List (Date × List (Option ℚ))) (ff : List (Date × FQuad)) :
    List String :=
  validStocks names (pipelinePanel names raw ff)

/-! ### Helper lemmas -/

/-- A `filterMap` whose function always succeeds is a `map`. -/
theorem filterMap_some_eq_map {α β : Type} (f : α → β) (l : List α) :
    l.filterMap (fun x => some (f x)) = l.map f := by
  induction l with
  | nil => rfl
  | cons a l ih => simp [List.filterMap_cons, ih]

/-- Membership is preserved by `insertSorted`. -/
theorem mem_insertSorted {a d : Date} {l : List Date} :
    a ∈ insertSorted d l ↔ a = d ∨ a ∈ l := by
  induction l with
  | nil => simp [insertSorted]
  | cons x xs ih =>
      by_cases h : d.key ≤ x.key
      · simp [insertSorted, h]
      · simp [insertSorted, h, ih]
        tauto

/-- Membership is preserved by `sortDates`. -/
theorem mem_sortDates {a : Date} {l : List Date} :
    a ∈ sortDates l ↔ a ∈ l := by
  induction l with
  | nil => simp [sortDates]
  | cons x xs ih =>
      simp only [sortDates, List.foldr_cons] at *
      rw [mem_insertSorted, ih, List.mem_cons]

/-- `dedupKeys` only ever drops elements. -/
theorem dedupKeys_subset : ∀ l : List Date, dedupKeys l ⊆ l
  | [] => by simp [dedupKeys]
  | [x] => by simp [dedupKeys]
  | x :: y :: ys => by
      intro a ha
      have hstep :
          dedupKeys (x :: y :: ys) =
            if x.key == y.key then dedupKeys (y :: ys)
            else x :: dedupKeys (y :: ys) := rfl
      rw [hstep] at ha
      split at ha
      · exact List.mem_cons_of_mem x (dedupKeys_subset (y :: ys) ha)
      · rcases List.mem_cons.mp ha with h | h
        · exact h ▸ List.mem_cons_self x (y :: ys)
        · exact List.mem_cons_of_mem x (dedupKeys_subset (y :: ys) h)

/-- Membership in the union index comes from one of the three sources. -/
theorem mem_unionDates {a : Date} {s i f : List Date} :
    a ∈ unionDates s i f → a ∈ s ∨ a ∈ i ∨ a ∈ f := by
  intro h
  have := mem_sortDates.mp (dedupKeys_subset _ h)
  simpa using this

/-- Rows surviving `sliceToFF` come from the input. -/
theorem mem_sliceToFF {α : Type} {r : Date × α} {ff : List (Date × FQuad)}
    {rows : List (Date × α)} (h : r ∈ sliceToFF ff rows) : r ∈ rows := by
  unfold sliceToFF at h
  rcases hlo : (ff.map (fun r => r.1.key)).min? with _ | lo <;>
    rcases hhi : (ff.map (fun r => r.1.key)).max? with _ | hi <;>
      rw [hlo, hhi] at h <;> simp_all

/-- The three lookups depend on the probe date only through its key. -/
theorem stockLookup_key_congr (sRet : List (Date × List ℚ)) {d e : Date}
    (h : d.key = e.key) : stockLookup sRet d = stockLookup sRet e := by
  unfold stockLookup; rw [h]

/-- `idxLookup` depends on the probe date only through its key. -/
theorem idxLookup_key_congr (iRet : List (Date × ℚ)) {d e : Date}
    (h : d.key = e.key) : idxLookup iRet d = idxLookup iRet e := by
  unfold idxLookup; rw [h]

/-- `ffLookup` depends on the probe date only through its key. -/
theorem ffLookup_key_congr (ff : List (Date × FQuad)) {d e : Date}
    (h : d.key = e.key) : ffLookup ff d = ffLookup ff e := by
  unfold ffLookup; rw [h]

/-! ### C5. Result file columns -/

/-- C5, counterexample: the claim says both tabular output files include the
alpha and beta t-statistic columns; the three-factor results dict
(lines 172-179) stores neither `Alpha_t` nor `Beta_t`. -/
theorem c5_ff3_tstat_counterexample :
    ¬ ("Alpha_t" ∈ ff3Columns ∧ "Beta_t" ∈ ff3Columns) := by decide

/-- C5, amended: every CAPM record has columns `Stock, Alpha, Beta_IBEX,
Alpha_t, Beta_t, R2` and every three-factor record has columns `Stock,
Alpha, Beta_IBEX, SMB_coef, HML_coef, R2`; the t-statistic columns appear
only in the CAPM file, not in the three-factor file. -/
theorem c5_result_file_columns :
    (∀ s xs ys, (capmRow s xs ys).map Prod.fst = capmColumns) ∧
    (∀ s ex smb hml ys, (ffRow s ex smb hml ys).map Prod.fst = ff3Columns) ∧
    "Alpha_t" ∈ capmColumns ∧ "Beta_t" ∈ capmColumns ∧
    "Alpha_t" ∉ ff3Columns ∧ "Beta_t" ∉ ff3Columns :=
  ⟨fun _ _ _ => rfl, fun _ _ _ _ _ => rfl,
   by decide, by decide, by decide, by decide⟩

/-! ### C9. All-or-nothing validity -/

/-- C9: the merged panel is complete, so each stock's excess-return column
is empty exactly when the panel is; hence the valid-stock list is the whole
configured list when the panel is non-empty and empty when the panel is
empty (the hypothesis is the tabular invariant that every panel row has one
return cell per configured stock). -/
theorem c9_all_or_nothing_validity (names : List String)
    (panel : List PanelRow)
    (hrect : ∀ r ∈ panel, r.stockRets.length = names.length) :
    (panel ≠ [] → validStocks names panel = names) ∧
    (panel = [] → validStocks names panel = []) := by
  constructor
  · intro hne
    unfold validStocks validPairs
    rw [List.filter_eq_self.mpr, List.enum_map_snd]
    intro p hp
    cases hpanel : panel with
    | nil => exact absurd hpanel hne
    | cons r rest =>
        have hj : p.1 < names.length := by
          have h1 := List.mem_enum_iff_getElem?.mp hp
          exact (List.getElem?_eq_some.mp h1).1
        have hmem : r ∈ panel := by rw [hpanel]; exact List.mem_cons_self r rest
        have hlen : p.1 < r.stockRets.length := by rw [hrect r hmem]; exact hj
        have hv : r.stockRets[p.1]? = some r.stockRets[p.1] :=
          List.getElem?_eq_getElem hlen
        simp [excessCol, List.filterMap_cons, hv]
  · intro h
    subst h
    simp [validStocks, validPairs, excessCol]

/-- C9, witness: a concrete two-stock panel where both conclusions fire. -/
theorem c9_witness :
    validStocks ["A", "B"]
        [⟨⟨2023, 2, 1⟩, [1, 2], 3, ⟨1, 1, 1, 1⟩⟩] = ["A", "B"] ∧
    validStocks ["A", "B"] [] = [] :=
  ⟨(c9_all_or_nothing_validity ["A", "B"]
      [⟨⟨2023, 2, 1⟩, [1, 2], 3, ⟨1, 1, 1, 1⟩⟩] (by decide)).1 (by decide),
   (c9_all_or_nothing_validity ["A", "B"] [] (by decide)).2 rfl⟩

/-! ### C10. Joint daily filtering -/

/-- When every row has a ticker-`j` cell, the per-ticker series keeps the
whole date index. -/
theorem tickerSeries_map_fst (j : Nat) :
    ∀ t : List (Date × List ℚ), (∀ r ∈ t, j < r.2.length) →
      (tickerSeries j t).map Prod.fst = t.map Prod.fst := by
  intro t
  induction t with
  | nil => intro _; rfl
  | cons r t ih =>
      intro h
      have hlen : j < r.2.length := h r (List.mem_cons_self r t)
      have hv : r.2[j]? = some r.2[j] := List.getElem?_eq_getElem hlen
      simp only [tickerSeries, List.filterMap_cons, hv, Option.map_some',
        List.map_cons]
      exact congrArg (List.cons r.1)
        (ih (fun x hx => h x (List.mem_cons_of_mem r hx)))

/-- C10: `prices = data["Close"].dropna()` removes a calendar day exactly
when some ticker's closing price is missing there, and afterwards every
per-ticker daily series shares the same date index (the hypothesis is the
tabular invariant that every downloaded row has one cell per ticker). -/
theorem c10_joint_dropna_shared_index (raw : List (Date × List (Option ℚ)))
    (n : Nat) (hrect : ∀ r ∈ raw, r.2.length = n) :
    (∀ d : Date, d ∈ (pricesOf raw).map Prod.fst ↔
       ∃ r ∈ raw, r.1 = d ∧ r.2.all (fun o => o.isSome) = true) ∧
    (∀ j, j < n → (tickerSeries j (pricesOf raw)).map Prod.fst =
       (pricesOf raw).map Prod.fst) := by
  constructor
  · intro d
    simp only [pricesOf, List.map_map, List.mem_map, Function.comp,
      List.mem_filter]
    constructor
    · rintro ⟨r, ⟨hr, hall⟩, hfst⟩
      exact ⟨r, hr, hfst, hall⟩
    · rintro ⟨r, hr, hfst, hall⟩
      exact ⟨r, ⟨hr, hall⟩, hfst⟩
  · intro j hj
    apply tickerSeries_map_fst
    intro r hr
    simp only [pricesOf, List.mem_map, List.mem_filter] at hr
    obtain ⟨r0, ⟨hr0, hall⟩, heq⟩ := hr
    have hlen : r0.2.reduceOption.length = r0.2.length :=
      List.reduceOption_length_eq_iff.mpr
        (fun x hx => List.all_eq_true.mp hall x hx)
    rw [← heq]
    simpa [hlen, hrect r0 hr0] using hj

/-- C10, witness: a two-day, two-ticker download where the second day is
missing ticker 0; the first day survives and both ticker series share the
filtered index. -/
theorem c10_witness :
    (∃ r ∈ [((⟨2023, 1, 2⟩ : Date), [some (1 : ℚ), some 2]),
            (⟨2023, 1, 3⟩, [none, some 3])],
       r.1 = (⟨2023, 1, 2⟩ : Date) ∧ r.2.all (fun o => o.isSome) = true) ∧
    (tickerSeries 1 (pricesOf [((⟨2023, 1, 2⟩ : Date), [some 1, some 2]),
        (⟨2023, 1, 3⟩, [none, some 3])])).map Prod.fst =
      (pricesOf [((⟨2023, 1, 2⟩ : Date), [some 1, some 2]),
        (⟨2023, 1, 3⟩, [none, some 3])]).map Prod.fst :=
  ⟨((c10_joint_dropna_shared_index _ 2 (by decide)).1 ⟨2023, 1, 2⟩).mp
      (by decide),
   (c10_joint_dropna_shared_index _ 2 (by decide)).2 1 (by decide)⟩

/-! ### C3. Merged panel completeness -/

/-- C3: every row of `data_merged` carries the value of every column
(all stock returns, the index return and the four factors all resolve at
its date), and a date at which any source is missing never appears in the
panel. -/
theorem c3_merged_panel_complete (sRet : List (Date × List ℚ))
    (iRet : List (Date × ℚ)) (ff : List (Date × FQuad)) :
    (∀ row ∈ dataMerged sRet iRet ff,
       stockLookup sRet row.date = some row.stockRets ∧
       idxLookup iRet row.date = some row.ibex ∧
       ffLookup ff row.date = some row.facs) ∧
    (∀ d : Date,
       (stockLookup sRet d = none ∨ idxLookup iRet d = none ∨
         ffLookup ff d = none) →
       ∀ row ∈ dataMerged sRet iRet ff, row.date.key ≠ d.key) := by
  have key : ∀ row ∈ dataMerged sRet iRet ff,
      stockLookup sRet row.date = some row.stockRets ∧
      idxLookup iRet row.date = some row.ibex ∧
      ffLookup ff row.date = some row.facs := by
    intro row hrow
    obtain ⟨d, _, hf⟩ := List.mem_filterMap.mp hrow
    rcases hs : stockLookup sRet d with _ | sv <;>
      rcases hi : idxLookup iRet d with _ | iv <;>
        rcases hff : ffLookup ff d with _ | fv <;>
          rw [hs, hi, hff] at hf <;> try exact Option.noConfusion hf
    have hrow' : (⟨d, sv, iv, fv⟩ : PanelRow) = row := Option.some.inj hf
    subst hrow'
    exact ⟨hs, hi, hff⟩
  refine ⟨key, ?_⟩
  intro d hmiss row hrow hkey
  obtain ⟨h1, h2, h3⟩ := key row hrow
  rcases hmiss with hm | hm | hm
  · rw [stockLookup_key_congr sRet hkey, hm] at h1
    exact Option.noConfusion h1
  · rw [idxLookup_key_congr iRet hkey, hm] at h2
    exact Option.noConfusion h2
  · rw [ffLookup_key_congr ff hkey, hm] at h3
    exact Option.noConfusion h3

/-- C3, witness: a one-date merge where the surviving row resolves in every
source, and the factor-only date 2023-02-01 (missing from the returns) is
absent from the panel. -/
theorem c3_witness :
    stockLookup [((⟨2023, 1, 1⟩ : Date), [(1 : ℚ), 2])] ⟨2023, 1, 1⟩ =
      some [1, 2] ∧
    (∀ row ∈ dataMerged [((⟨2023, 1, 1⟩ : Date), [(1 : ℚ), 2])]
        [((⟨2023, 1, 1⟩ : Date), (3 : ℚ))]
        [((⟨2023, 1, 1⟩ : Date), (⟨1, 1, 1, 1⟩ : FQuad)),
         (⟨2023, 2, 1⟩, ⟨1, 1, 1, 1⟩)],
       row.date.key ≠ (⟨2023, 2, 1⟩ : Date).key) :=
  ⟨((c3_merged_panel_complete [((⟨2023, 1, 1⟩ : Date), [(1 : ℚ), 2])]
      [((⟨2023, 1, 1⟩ : Date), (3 : ℚ))]
      [((⟨2023, 1, 1⟩ : Date), (⟨1, 1, 1, 1⟩ : FQuad)),
       (⟨2023, 2, 1⟩, ⟨1, 1, 1, 1⟩)]).1
      ⟨⟨2023, 1, 1⟩, [1, 2], 3, ⟨1, 1, 1, 1⟩⟩ (by decide)).1,
   (c3_merged_panel_complete [((⟨2023, 1, 1⟩ : Date), [(1 : ℚ), 2])]
      [((⟨2023, 1, 1⟩ : Date), (3 : ℚ))]
      [((⟨2023, 1, 1⟩ : Date), (⟨1, 1, 1, 1⟩ : FQuad)),
       (⟨2023, 2, 1⟩, ⟨1, 1, 1, 1⟩)]).2 ⟨2023, 2, 1⟩ (Or.inl (by decide))⟩

/-! ### C7. Disjoint date ranges give an empty panel -/

/-- C7: when no stock-return date and no index-return date shares a key
with any factor date (in particular when the date ranges are disjoint), the
merged panel is empty. -/
theorem c7_disjoint_ranges_empty_panel (sRet : List (Date × List ℚ))
    (iRet : List (Date × ℚ)) (ff : List (Date × FQuad))
    (hs : ∀ r ∈ sRet, ∀ f ∈ ff, r.1.key ≠ f.1.key)
    (hi : ∀ r ∈ iRet, ∀ f ∈ ff, r.1.key ≠ f.1.key) :
    dataMerged (sliceToFF ff sRet) (sliceToFF ff iRet) ff = [] := by
  unfold dataMerged
  apply List.filterMap_eq_nil_iff.mpr
  intro d hd
  rcases mem_unionDates hd with hmem | hmem | hmem
  · obtain ⟨r, hr, hfst⟩ := List.mem_map.mp hmem
    have hnone : ffLookup ff d = none := by
      unfold ffLookup
      rw [List.find?_eq_none.mpr ?_]
      · rfl
      · intro f hf hbeq
        have hkey : f.1.key = d.key := by simpa using hbeq
        exact hs r (mem_sliceToFF hr) f hf (by rw [hfst]; exact hkey.symm)
    rcases hA : stockLookup (sliceToFF ff sRet) d with _ | sv <;>
      rcases hB : idxLookup (sliceToFF ff iRet) d with _ | iv <;>
        simp [hA, hB, hnone]
  · obtain ⟨r, hr, hfst⟩ := List.mem_map.mp hmem
    have hnone : ffLookup ff d = none := by
      unfold ffLookup
      rw [List.find?_eq_none.mpr ?_]
      · rfl
      · intro f hf hbeq
        have hkey : f.1.key = d.key := by simpa using hbeq
        exact hi r (mem_sliceToFF hr) f hf (by rw [hfst]; exact hkey.symm)
    rcases hA : stockLookup (sliceToFF ff sRet) d with _ | sv <;>
      rcases hB : idxLookup (sliceToFF ff iRet) d with _ | iv <;>
        simp [hA, hB, hnone]
  · obtain ⟨f, hf, hfst⟩ := List.mem_map.mp hmem
    have hnone : stockLookup (sliceToFF ff sRet) d = none := by
      unfold stockLookup
      rw [List.find?_eq_none.mpr ?_]
      · rfl
      · intro r hr hbeq
        have hkey : r.1.key = d.key := by simpa using hbeq
        exact hs r (mem_sliceToFF hr) f hf (by rw [← hfst] at hkey; exact hkey)
    rcases hB : idxLookup (sliceToFF ff iRet) d with _ | iv <;>
      rcases hC : ffLookup ff d with _ | fv <;>
        simp [hB, hC, hnone]

/-- C7, witness: returns in May 2023 only, factors in January 2023 only;
the merged panel is empty. -/
theorem c7_witness :
    dataMerged
      (sliceToFF [((⟨2023, 1, 1⟩ : Date), (⟨1, 1, 1, 1⟩ : FQuad))]
        [((⟨2023, 5, 1⟩ : Date), [(1 : ℚ)])])
      (sliceToFF [((⟨2023, 1, 1⟩ : Date), (⟨1, 1, 1, 1⟩ : FQuad))]
        [((⟨2023, 5, 1⟩ : Date), (2 : ℚ))])
      [((⟨2023, 1, 1⟩ : Date), (⟨1, 1, 1, 1⟩ : FQuad))] = [] :=
  c7_disjoint_ranges_empty_panel _ _ _ (by decide) (by decide)

/-! ### C6. Result rows follow the valid-stock list -/

/-- Chart file names determine the stock name. -/
theorem chartName_inj {a b : String} (h : chartName a = chartName b) :
    a = b := by
  unfold chartName at h
  have h1 := congrArg String.data h
  rw [String.data_append, String.data_append, String.data_append,
    String.data_append, List.append_assoc, List.append_assoc] at h1
  have h2 := List.append_cancel_left h1
  have h3 := List.append_cancel_right h2
  cases a; cases b; exact congrArg String.mk h3

/-- Valid stocks arise from an enumerated position with a non-empty
excess-return column. -/
theorem mem_validStocks {names : List String} {panel : List PanelRow}
    {s : String} (h : s ∈ validStocks names panel) :
    ∃ p : Nat × String, p ∈ names.enum ∧
      (!(excessCol p.1 panel).isEmpty) = true ∧ p.2 = s := by
  obtain ⟨p, hp, hps⟩ := List.mem_map.mp h
  obtain ⟨hpe, hq⟩ := List.mem_filter.mp hp
  exact ⟨p, hpe, hq, hps⟩

/-- C6: a stock whose excess-return column is empty after alignment appears
in neither result table, in the valid list, nor among the scatter charts;
each result table lists exactly the valid stocks, in valid-list order, and
the valid list preserves the insertion order of the configured stocks. -/
theorem c6_results_follow_valid_stocks (names : List String)
    (panel : List PanelRow) (hnd : names.Nodup) :
    (∀ j s, names[j]? = some s → excessCol j panel = [] →
       s ∉ validStocks names panel ∧
       s ∉ stockColumn (capmTable names panel) ∧
       s ∉ stockColumn (ffTable names panel) ∧
       chartName s ∉ scatterCharts names panel) ∧
    stockColumn (capmTable names panel) = validStocks names panel ∧
    stockColumn (ffTable names panel) = validStocks names panel ∧
    (capmTable names panel).length = (validStocks names panel).length ∧
    (ffTable names panel).length = (validStocks names panel).length ∧
    (validStocks names panel).Sublist names := by
  have hcapm : stockColumn (capmTable names panel) = validStocks names panel := by
    unfold stockColumn capmTable validStocks
    rw [List.filterMap_map]
    have hfn : (rowStock ∘ fun p : Nat × String =>
        capmRow p.2 (excessIbex panel) (excessCol p.1 panel)) =
        fun p : Nat × String => some p.2 := funext (fun p => rfl)
    rw [hfn]
    exact filterMap_some_eq_map (fun p => p.2) (validPairs names panel)
  have hff : stockColumn (ffTable names panel) = validStocks names panel := by
    unfold stockColumn ffTable validStocks
    rw [List.filterMap_map]
    have hfn : (rowStock ∘ fun p : Nat × String =>
        ffRow p.2 (excessIbex panel) (smbCol panel) (hmlCol panel)
          (excessCol p.1 panel)) =
        fun p : Nat × String => some p.2 := funext (fun p => rfl)
    rw [hfn]
    exact filterMap_some_eq_map (fun p => p.2) (validPairs names panel)
  have hnotin : ∀ j s, names[j]? = some s → excessCol j panel = [] →
      s ∉ validStocks names panel := by
    intro j s hget hempty hmem
    obtain ⟨p, hpe, hq, hps⟩ := mem_validStocks hmem
    have hp1 : names[p.1]? = some s := by
      rw [← hps]; exact List.mem_enum_iff_getElem?.mp hpe
    have hlt : p.1 < names.length := (List.getElem?_eq_some.mp hp1).1
    have : p.1 = j := List.getElem?_inj hlt hnd (by rw [hp1, hget])
    rw [this, hempty] at hq
    simp at hq
  refine ⟨?_, hcapm, hff, ?_, ?_, ?_⟩
  · intro j s hget hempty
    have hv := hnotin j s hget hempty
    refine ⟨hv, by rw [hcapm]; exact hv, by rw [hff]; exact hv, ?_⟩
    intro hchart
    obtain ⟨t, ht, hts⟩ := List.mem_map.mp hchart
    exact hv ((chartName_inj hts) ▸ ht)
  · simp [capmTable, validStocks, validPairs]
  · simp [ffTable, validStocks, validPairs]
  · unfold validStocks validPairs
    have h1 := (List.filter_sublist (l := names.enum)
      (p := fun p => !(excessCol p.1 panel).isEmpty)).map Prod.snd
    rw [List.enum_map_snd] at h1
    exact h1

/-- C6, witness: two configured stocks, a panel whose single row carries a
return cell only for the first; the second stock is excluded everywhere and
the CAPM table's `Stock` column equals the valid list. -/
theorem c6_witness :
    "B" ∉ validStocks ["A", "B"]
        [⟨⟨2023, 2, 1⟩, [(1 : ℚ)], 2, ⟨1, 1, 1, 1⟩⟩] ∧
    stockColumn (capmTable ["A", "B"]
        [⟨⟨2023, 2, 1⟩, [(1 : ℚ)], 2, ⟨1, 1, 1, 1⟩⟩]) =
      validStocks ["A", "B"] [⟨⟨2023, 2, 1⟩, [(1 : ℚ)], 2, ⟨1, 1, 1, 1⟩⟩] :=
  ⟨((c6_results_follow_valid_stocks ["A", "B"]
      [⟨⟨2023, 2, 1⟩, [(1 : ℚ)], 2, ⟨1, 1, 1, 1⟩⟩] (by decide)).1 1 "B"
      (by decide) (by decide)).1,
   (c6_results_follow_valid_stocks ["A", "B"]
      [⟨⟨2023, 2, 1⟩, [(1 : ℚ)], 2, ⟨1, 1, 1, 1⟩⟩] (by decide)).2.1⟩

/-! ### C2. Constant regressor and exact CAPM fit -/

/-- Pull a constant factor out of a mapped sum. -/
theorem sum_map_mul_const (c : ℚ) (g : ℚ → ℚ) (l : List ℚ) :
    (l.map (fun x => c * g x)).sum = c * (l.map g).sum := by
  induction l with
  | nil => simp
  | cons a l ih => simp [ih]; ring

/-- Zipping a list with its own image lists the graph of the function. -/
theorem zip_map_self (f : ℚ → ℚ) (l : List ℚ) :
    l.zip (l.map f) = l.map (fun x => (x, f x)) := by
  induction l with
  | nil => rfl
  | cons a l ih => simp [ih]

/-- C2, counterexample: the claim says both regressions always include an
explicit constant regressor of 1. The three-factor design of a
one-observation merged panel (excess index 5, SMB 2, HML 3) already has
peak-to-peak-zero nonzero columns, so `sm.add_constant` with its default
`has_constant="skip"` returns it unchanged: no row gains a constant 1, and
the source then fails at `model.params["const"]`. -/
theorem c2_skip_constant_counterexample :
    addConstant [[(5 : ℚ), 2, 3]] = [[5, 2, 3]] ∧
    ¬ (∀ r ∈ addConstant [[(5 : ℚ), 2, 3]], r.head? = some (1 : ℚ)) := by
  have h1 : addConstant [[(5 : ℚ), 2, 3]] = [[5, 2, 3]] := by decide
  refine ⟨h1, fun hall => ?_⟩
  have h := hall [5, 2, 3] (by rw [h1]; exact List.mem_cons_self _ _)
  rw [List.head?_cons] at h
  exact absurd (Option.some.inj h) (by decide)

/-- C2, amended: the CAPM design carries an explicit constant regressor of
`1` in every row (the literal `"const": 1` column); the three-factor design
gains one through `sm.add_constant` exactly when no column of the design is
already constant and nonzero, and is passed through unchanged otherwise
(after which the `params["const"]` lookup fails). On any non-degenerate
dataset whose stock excess returns are exactly twice the index excess
returns, the CAPM fit returns `Beta_IBEX = 2`, `Alpha = 0` and `R² = 1`. -/
theorem c2_const_and_capm_exact :
    (∀ ex : List ℚ, ∀ p ∈ capmDesign ex, p.1 = 1) ∧
    (∀ rows : List (List ℚ), hasConstantColumn rows = false →
       ∀ r ∈ addConstant rows, r.head? = some 1) ∧
    (∀ rows : List (List ℚ), hasConstantColumn rows = true →
       addConstant rows = rows) ∧
    (∀ xs ys : List ℚ, ys = xs.map (fun x => 2 * x) → sxx xs ≠ 0 →
       olsBeta xs ys = 2 ∧ olsAlpha xs ys = 0 ∧ rsquared xs ys = 1) := by
  refine ⟨?_, ?_, ?_, ?_⟩
  · intro ex p hp
    obtain ⟨x, _, hx⟩ := List.mem_map.mp hp
    rw [← hx]
  · intro rows hc r hr
    unfold addConstant at hr
    rw [hc] at hr
    simp only [Bool.false_eq_true, if_false] at hr
    obtain ⟨r0, _, hr0⟩ := List.mem_map.mp hr
    rw [← hr0]
    rfl
  · intro rows hc
    unfold addConstant
    rw [hc]
    simp
  · intro xs ys hy hsxx
    subst hy
    have hlen : (xs.map (fun x => 2 * x)).length = xs.length :=
      List.length_map xs _
    have hsum : (xs.map (fun x => 2 * x)).sum = 2 * xs.sum := by
      have h := sum_map_mul_const 2 id xs
      simpa using h
    have hmean : qmean (xs.map (fun x => 2 * x)) = 2 * qmean xs := by
      unfold qmean
      rw [hsum, hlen]
      ring
    have hzip : xs.zip (xs.map fun x => 2 * x) =
        xs.map (fun x => (x, 2 * x)) := zip_map_self _ xs
    have hsxy : sxy xs (xs.map fun x => 2 * x) = 2 * sxx xs := by
      unfold sxy sxx
      rw [hzip, hmean, List.map_map]
      have hfn : ((fun p : ℚ × ℚ => (p.1 - qmean xs) * (p.2 - 2 * qmean xs)) ∘
          fun x => (x, 2 * x)) = fun x => 2 * ((x - qmean xs) ^ 2) :=
        funext (fun x => by simp [Function.comp]; ring)
      rw [hfn, sum_map_mul_const 2 (fun x => (x - qmean xs) ^ 2) xs]
    have hbeta : olsBeta xs (xs.map fun x => 2 * x) = 2 := by
      unfold olsBeta
      rw [hsxy, mul_div_assoc, div_self hsxx, mul_one]
    have halpha : olsAlpha xs (xs.map fun x => 2 * x) = 0 := by
      unfold olsAlpha
      rw [hbeta, hmean]
      ring
    refine ⟨hbeta, halpha, ?_⟩
    have hssr : ssr xs (xs.map fun x => 2 * x) = 0 := by
      unfold ssr
      rw [hzip, List.map_map]
      have hfn : ((fun p : ℚ × ℚ =>
          (p.2 - olsAlpha xs (xs.map fun x => 2 * x) -
            olsBeta xs (xs.map fun x => 2 * x) * p.1) ^ 2) ∘
          fun x => (x, 2 * x)) = fun _ => (0 : ℚ) :=
        funext (fun x => by simp [Function.comp, halpha, hbeta])
      rw [hfn]
      simp
    unfold rsquared
    rw [hssr]
    simp

/-- C2, witness: the design row `(1, 5)` has constant `1`; a two-row
design with no constant column gains the constant in every row; a design
with a constant nonzero column is passed through unchanged; and the
dataset `x = [0, 1]`, `y = [0, 2]` (so `y = 2x` exactly) fits with slope
2, intercept 0 and `R² = 1`. -/
theorem c2_witness :
    ((1 : ℚ), (5 : ℚ)).1 = 1 ∧
    (∀ r ∈ addConstant [[(0 : ℚ), 2], [1, 3]], r.head? = some 1) ∧
    addConstant [[(7 : ℚ), 2, 3]] = [[7, 2, 3]] ∧
    olsBeta [0, 1] [0, 2] = 2 ∧ olsAlpha [0, 1] [0, 2] = 0 ∧
    rsquared [0, 1] [0, 2] = 1 :=
  have h := c2_const_and_capm_exact.2.2.2 [0, 1] [0, 2] (by norm_num)
    (by norm_num [sxx, qmean])
  ⟨c2_const_and_capm_exact.1 [5] (1, 5) (by decide),
   c2_const_and_capm_exact.2.1 [[0, 2], [1, 3]] (by decide),
   c2_const_and_capm_exact.2.2.1 [[7, 2, 3]] (by decide),
   h.1, h.2.1, h.2.2⟩

/-! ### C8. Factor loader date filtering -/

/-- One unfolding step of `factorLoad` on a non-empty input. -/
theorem factorLoad_cons (r : FRow) (rest : List FRow) :
    factorLoad (r :: rest) =
      if isSixDigits (pyStrip r.1) then
        match parseYYYYMM (pyStrip r.1) with
        | none => none
        | some d =>
            (factorLoad rest).map (fun out =>
              match numericQuad r.2 with
              | some q => (d, q) :: out
              | none => out)
      else factorLoad rest := rfl

/-- C8, counterexample: the claim says a row is retained (without error) if
and only if its stripped token is exactly six digits; the six-digit token
`"202313"` passes the filter but does not match the `%Y%m` format (month
13), so `pd.to_datetime` raises and the load errors instead of retaining
the row. -/
theorem c8_invalid_month_counterexample :
    isSixDigits (pyStrip ("202313")) = true ∧
    factorLoad [(("202313"), ("1.0"), ("1.0"), ("1.0"), ("1.0"))] = none :=
  ⟨by decide, by decide⟩

/-- C8, amended: a row passes the date filter exactly when its stripped
token is six digits; `"202301"` is relabelled to 2023-01-01 while
`"20231"` and `"2023-01"` are excluded without error; rows whose six-digit
token also has a month in 01..12 are retained (when their factor cells
parse), every retained row stems from such a token, and a six-digit token
whose month part is invalid makes the whole load raise. -/
theorem c8_factor_loader_dates :
    (factorLoad [(("202301"), ("1.2"), ("2"), ("3"), ("0.5"))]).map
        (fun l => l.map Prod.fst) = some [⟨2023, 1, 1⟩] ∧
    factorLoad [(("20231"), ("1"), ("1"), ("1"), ("1")),
        (("2023-01"), ("1"), ("1"), ("1"), ("1"))] = some [] ∧
    (∀ raw : List FRow,
       (∀ r ∈ raw, isSixDigits (pyStrip r.1) = true →
          validYM (pyStrip r.1) = true) →
       ∃ out, factorLoad raw = some out ∧
         (∀ p ∈ out, ∃ r ∈ raw, isSixDigits (pyStrip r.1) = true ∧
            parseYYYYMM (pyStrip r.1) = some p.1) ∧
         (∀ r ∈ raw, isSixDigits (pyStrip r.1) = true →
            numericQuad r.2 ≠ none →
            ∃ p ∈ out, parseYYYYMM (pyStrip r.1) = some p.1)) ∧
    (∀ (raw : List FRow) (r : FRow), r ∈ raw →
       isSixDigits (pyStrip r.1) = true → validYM (pyStrip r.1) = false →
       factorLoad raw = none) := by
  refine ⟨by decide, by decide, ?_, ?_⟩
  · intro raw
    induction raw with
    | nil => exact fun _ => ⟨[], rfl, by simp, by simp⟩
    | cons r rest ih =>
        intro h
        obtain ⟨out, hout, hmem1, hmem2⟩ :=
          ih (fun x hx => h x (List.mem_cons_of_mem r hx))
        by_cases hsix : isSixDigits (pyStrip r.1) = true
        · have hvalid : validYM (pyStrip r.1) = true :=
            h r (List.mem_cons_self r rest) hsix
          obtain ⟨d, hd⟩ : ∃ d, parseYYYYMM (pyStrip r.1) = some d :=
            Option.isSome_iff_exists.mp hvalid
          cases hq : numericQuad r.2 with
          | some q =>
              refine ⟨(d, q) :: out, ?_, ?_, ?_⟩
              · rw [factorLoad_cons, if_pos hsix, hd, hout]
                simp [hq]
              · intro p hp
                rcases List.mem_cons.mp hp with hp | hp
                · exact ⟨r, List.mem_cons_self r rest, hsix, by
                    rw [hd, hp]⟩
                · obtain ⟨r0, hr0, h1, h2⟩ := hmem1 p hp
                  exact ⟨r0, List.mem_cons_of_mem r hr0, h1, h2⟩
              · intro r0 hr0 hsix0 hnq
                rcases List.mem_cons.mp hr0 with hr0 | hr0
                · subst hr0
                  exact ⟨(d, q), List.mem_cons_self _ out, hd⟩
                · obtain ⟨p, hp, hpd⟩ := hmem2 r0 hr0 hsix0 hnq
                  exact ⟨p, List.mem_cons_of_mem _ hp, hpd⟩
          | none =>
              refine ⟨out, ?_, ?_, ?_⟩
              · rw [factorLoad_cons, if_pos hsix, hd, hout]
                simp [hq]
              · intro p hp
                obtain ⟨r0, hr0, h1, h2⟩ := hmem1 p hp
                exact ⟨r0, List.mem_cons_of_mem r hr0, h1, h2⟩
              · intro r0 hr0 hsix0 hnq
                rcases List.mem_cons.mp hr0 with hr0 | hr0
                · subst hr0
                  exact absurd hq hnq
                · obtain ⟨p, hp, hpd⟩ := hmem2 r0 hr0 hsix0 hnq
                  exact ⟨p, hp, hpd⟩
        · refine ⟨out, ?_, ?_, ?_⟩
          · rw [factorLoad_cons, if_neg hsix]
            exact hout
          · intro p hp
            obtain ⟨r0, hr0, h1, h2⟩ := hmem1 p hp
            exact ⟨r0, List.mem_cons_of_mem r hr0, h1, h2⟩
          · intro r0 hr0 hsix0 hnq
            rcases List.mem_cons.mp hr0 with hr0 | hr0
            · subst hr0
              exact absurd hsix0 hsix
            · obtain ⟨p, hp, hpd⟩ := hmem2 r0 hr0 hsix0 hnq
              exact ⟨p, hp, hpd⟩
  · intro raw
    induction raw with
    | nil => intro r hr; cases hr
    | cons r0 rest ih =>
        intro r hr hsix hvalid
        rcases List.mem_cons.mp hr with hr | hr
        · subst hr
          have hnone : parseYYYYMM (pyStrip r.1) = none :=
            Option.not_isSome_iff_eq_none.mp (by rw [validYM] at hvalid; simp [hvalid])
          rw [factorLoad_cons, if_pos hsix, hnone]
        · have hrest : factorLoad rest = none := ih r hr hsix hvalid
          rw [factorLoad_cons]
          by_cases h0 : isSixDigits (pyStrip r0.1) = true
          · rw [if_pos h0]
            cases parseYYYYMM (pyStrip r0.1) with
            | none => rfl
            | some d => rw [hrest]; rfl
          · rw [if_neg h0]
            exact hrest

/-- C8, witness: a mixed concrete load (one good token, one malformed
token, one row with an unparsable factor cell) through the general parts of
the amended statement. -/
theorem c8_witness :
    (∃ out, factorLoad [(("202301"), ("1"), ("1"), ("1"), ("1")),
        (("bad"), ("1"), ("1"), ("1"), ("1")),
        (("202302"), ("x"), ("1"), ("1"), ("1"))] = some out ∧
      (∀ p ∈ out, ∃ r ∈ [(("202301"), ("1"), ("1"), ("1"), ("1")),
          (("bad"), ("1"), ("1"), ("1"), ("1")),
          (("202302"), ("x"), ("1"), ("1"), ("1"))],
        isSixDigits (pyStrip r.1) = true ∧
        parseYYYYMM (pyStrip r.1) = some p.1) ∧
      (∀ r ∈ [(("202301"), ("1"), ("1"), ("1"), ("1")),
          (("bad"), ("1"), ("1"), ("1"), ("1")),
          (("202302"), ("x"), ("1"), ("1"), ("1"))],
        isSixDigits (pyStrip r.1) = true → numericQuad r.2 ≠ none →
        ∃ p ∈ out, parseYYYYMM (pyStrip r.1) = some p.1)) ∧
    factorLoad [(("202300"), ("1"), ("1"), ("1"), ("1"))] = none :=
  ⟨c8_factor_loader_dates.2.2.1 _ (by decide),
   c8_factor_loader_dates.2.2.2 _ (("202300"), ("1"), ("1"), ("1"), ("1"))
     (by decide) (by decide) (by decide)⟩

/-! ### C4. A fully missing ticker empties the pipeline -/

/-- Slicing an empty return table gives an empty table. -/
theorem sliceToFF_nil {α : Type} (ff : List (Date × FQuad)) :
    sliceToFF ff ([] : List (Date × α)) = [] := by
  unfold sliceToFF
  cases (ff.map (fun r => r.1.key)).min? <;>
    cases (ff.map (fun r => r.1.key)).max? <;> rfl

/-- Without stock-return rows the merged panel is empty: every union date
fails the stock lookup. -/
theorem dataMerged_nil_stock (iRet : List (Date × ℚ))
    (ff : List (Date × FQuad)) : dataMerged [] iRet ff = [] := by
  apply List.filterMap_eq_nil_iff.mpr
  intro d _
  have hA : stockLookup [] d = none := rfl
  rcases hB : idxLookup iRet d with _ | iv <;>
    rcases hC : ffLookup ff d with _ | fv <;> simp [hA, hB, hC]

/-- An empty panel validates no stock. -/
theorem validStocks_nil (names : List String) :
    validStocks names [] = [] := by
  simp [validStocks, validPairs, excessCol]

/-- The configured tickers of the run (`stocks`, line 15). -/
def c4names : List String := ["BKT.MC", "ENG.MC", "ANA.MC", "COL.MC", "LOG.MC"]

/-- A download in which stocks 3 and 4 return no data over the whole window
while the other three stocks and the index (column 5) are complete. -/
def c4raw : List (Date × List (Option ℚ)) :=
  [(⟨2023, 1, 16⟩, [some 10, some 20, some 30, none, none, some 9000]),
   (⟨2023, 2, 15⟩, [some 11, some 21, some 33, none, none, some 9100]),
   (⟨2023, 3, 15⟩, [some 12, some 22, some 36, none, none, some 9200])]

/-- A factor table covering the same months. -/
def c4ff : List (Date × FQuad) :=
  [(⟨2023, 1, 1⟩, ⟨1, 2, 3, 1⟩), (⟨2023, 2, 1⟩, ⟨1, 2, 3, 1⟩),
   (⟨2023, 3, 1⟩, ⟨2, 1, 1, 1⟩)]

/-- C4, counterexample: the claim predicts a valid-stock list of exactly 3
entries, 3 result rows per table and 3 charts; on this input - two of the
five stocks entirely missing, the remaining three stocks and the index
complete - the joint row-wise `dropna` removes every price row, so the
valid list, both tables and the chart set are all empty (0, not 3). -/
theorem c4_missing_tickers_counterexample :
    (∀ r ∈ c4raw, r.2[3]? = some none ∧ r.2[4]? = some none) ∧
    (∀ r ∈ c4raw, (r.2[0]?.getD none).isSome = true ∧
       (r.2[1]?.getD none).isSome = true ∧ (r.2[2]?.getD none).isSome = true ∧
       (r.2[5]?.getD none).isSome = true) ∧
    (pipelineValidStocks c4names c4raw c4ff).length = 0 ∧
    (capmTable c4names (pipelinePanel c4names c4raw c4ff)).length = 0 ∧
    (ffTable c4names (pipelinePanel c4names c4raw c4ff)).length = 0 ∧
    (scatterCharts c4names (pipelinePanel c4names c4raw c4ff)).length = 0 := by
  decide

/-- C4, amended: when any ticker's column is missing over the entire
window, the joint row-wise `dropna` of line 38 drops every row, so the
valid-stock list is empty, both result tables have zero rows and no scatter
chart is produced; the run raises no error. -/
theorem c4_missing_ticker_empties_outputs (names : List String)
    (raw : List (Date × List (Option ℚ))) (ff : List (Date × FQuad))
    (h : ∃ j : Nat, ∀ r ∈ raw, r.2[j]? = some none) :
    pipelineValidStocks names raw ff = [] ∧
    (capmTable names (pipelinePanel names raw ff)).length = 0 ∧
    (ffTable names (pipelinePanel names raw ff)).length = 0 ∧
    (scatterCharts names (pipelinePanel names raw ff)).length = 0 := by
  obtain ⟨j, hj⟩ := h
  have hprices : pricesOf raw = [] := by
    unfold pricesOf
    rw [List.filter_eq_nil_iff.mpr, List.map_nil]
    intro r hr hall
    have h1 := hj r hr
    have h2 : (none : Option ℚ) ∈ r.2 := by
      obtain ⟨hlt, hget⟩ := List.getElem?_eq_some.mp h1
      exact hget ▸ List.getElem_mem hlt
    have h3 := List.all_eq_true.mp hall (none : Option ℚ) h2
    simp at h3
  have hpanel : pipelinePanel names raw ff = [] := by
    unfold pipelinePanel
    rw [hprices]
    show dataMerged (sliceToFF ff (List.map _ (monthlyTable []))) _ _ = []
    have hm : monthlyTable ([] : List (Date × List ℚ)) = [] := rfl
    rw [hm]
    show dataMerged (sliceToFF ff []) (sliceToFF ff []) ff = []
    rw [sliceToFF_nil, sliceToFF_nil]
    exact dataMerged_nil_stock [] ff
  unfold pipelineValidStocks
  rw [hpanel]
  refine ⟨validStocks_nil names, ?_, ?_, ?_⟩ <;>
    simp [capmTable, ffTable, scatterCharts, validStocks_nil, validStocks,
      validPairs, excessCol]

/-- C4, witness: the amended conclusion instantiated at the concrete
download with two all-missing tickers. -/
theorem c4_witness :
    pipelineValidStocks c4names c4raw c4ff = [] ∧
    (capmTable c4names (pipelinePanel c4names c4raw c4ff)).length = 0 :=
  have h := c4_missing_ticker_empties_outputs c4names c4raw c4ff
    ⟨3, by decide⟩
  ⟨h.1, h.2.1⟩

/-! ### C1. Shape of the monthly return series -/

/-- A month containing an observation resolves under `lastInMonth`. -/
theorem lastInMonth_isSome {α : Type} {rows : List (Date × α)} {mi : Nat}
    (h : ∃ r ∈ rows, r.1.monthIdx = mi) :
    ∃ v, lastInMonth rows mi = some v := by
  obtain ⟨r, hr, hmi⟩ := h
  have hf : r ∈ rows.filter (fun x => x.1.monthIdx == mi) :=
    List.mem_filter.mpr ⟨hr, by simp [hmi]⟩
  have hne : rows.filter (fun x => x.1.monthIdx == mi) ≠ [] :=
    List.ne_nil_of_mem hf
  obtain ⟨u, hu⟩ :=
    Option.isSome_iff_exists.mp (List.getLast?_isSome.mpr hne)
  exact ⟨u.2, by unfold lastInMonth; rw [hu]; rfl⟩

/-- Under month contiguity, resampling yields the last observed price of
every spanned month. -/
theorem resampleLast_eq (rows : List (Date × ℚ))
    (hcontig : ∀ mi ∈ spanMonths rows, ∃ r ∈ rows, r.1.monthIdx = mi) :
    resampleLast rows =
      (spanMonths rows).map (fun mi => (mi, some (lastPriceD rows mi))) := by
  unfold resampleLast
  apply List.map_congr_left
  intro mi hmi
  obtain ⟨v, hv⟩ := lastInMonth_isSome (hcontig mi hmi)
  simp [lastPriceD, hv]

/-- Forward filling leaves a list without missing entries unchanged. -/
theorem padRows_all_some {α : Type} :
    ∀ (l : List (Nat × Option α)) (c : Option α),
      (∀ p ∈ l, p.2.isSome) → padRows c l = l
  | [], _, _ => rfl
  | (mi, o) :: rest, c, h => by
      obtain ⟨v, hv⟩ := Option.isSome_iff_exists.mp
        (h (mi, o) (List.mem_cons_self _ rest))
      subst hv
      show (mi, some v) :: padRows (some v) rest = _
      rw [padRows_all_some rest (some v)
        (fun p hp => h p (List.mem_cons_of_mem _ hp))]

/-- `pct_change` over an all-present tail pairs consecutive entries. -/
theorem pctGo_somes {α : Type} (f : α → α → α) :
    ∀ (l : List (Nat × α)) (a : Nat × α),
      pctGo f (a.1, some a.2) (l.map (fun p => (p.1, some p.2))) =
      ((a :: l).zip l).map (fun q => (q.2.1, some (f q.1.2 q.2.2)))
  | [], _ => rfl
  | b :: rest, a => by
      show (b.1, some (f a.2 b.2)) ::
          pctGo f (b.1, some b.2) (rest.map (fun p => (p.1, some p.2))) = _
      rw [pctGo_somes f rest b]
      rfl

/-- A non-empty price table spans at least one month. -/
theorem spanMonths_ne_nil {α : Type} {rows : List (Date × α)}
    (hne : rows ≠ []) : spanMonths rows ≠ [] := by
  cases rows with
  | nil => exact absurd rfl hne
  | cons r rest =>
      obtain ⟨b, hb⟩ := Option.isSome_iff_exists.mp
        (List.getLast?_isSome.mpr (List.cons_ne_nil r rest))
      unfold spanMonths
      rw [hb]
      simp [List.range'_eq_nil]

/-- The closed form of the monthly return series when every spanned month
has an observation: one entry per consecutive pair of spanned months. -/
theorem monthlySeries_eq (rows : List (Date × ℚ)) (hne : rows ≠ [])
    (hcontig : ∀ mi ∈ spanMonths rows, ∃ r ∈ rows, r.1.monthIdx = mi) :
    monthlySeries rows =
      ((spanMonths rows).zip (spanMonths rows).tail).map
        (fun q => (monthStartOfIdx q.2,
          pctQ (lastPriceD rows q.1) (lastPriceD rows q.2))) := by
  unfold monthlySeries monthlyFrom
  rw [resampleLast_eq rows hcontig]
  have hmap : (spanMonths rows).map
      (fun mi => (mi, some (lastPriceD rows mi))) =
      ((spanMonths rows).map (fun mi => (mi, lastPriceD rows mi))).map
        (fun p => (p.1, some p.2)) := by
    rw [List.map_map]
    rfl
  rw [hmap, padRows_all_some _ none ?hsome]
  case hsome =>
    intro p hp
    obtain ⟨q, _, hq⟩ := List.mem_map.mp hp
    rw [← hq]
    rfl
  cases hS : spanMonths rows with
  | nil => exact absurd hS (spanMonths_ne_nil hne)
  | cons m0 tl =>
      simp only [List.map_cons]
      show (((m0, lastPriceD rows m0).1, none) ::
          pctGo pctQ ((m0, lastPriceD rows m0).1,
            some (m0, lastPriceD rows m0).2)
            ((tl.map (fun mi => (mi, lastPriceD rows mi))).map
              (fun p => (p.1, some p.2)))).filterMap
          (fun p => p.2.map (fun v => (monthStartOfIdx p.1, v))) = _
      rw [pctGo_somes pctQ (tl.map (fun mi => (mi, lastPriceD rows mi)))
        (m0, lastPriceD rows m0)]
      rw [List.filterMap_cons]
      simp only [Option.map_none']
      rw [List.filterMap_map]
      have hcomp : ((fun p : Nat × Option ℚ =>
          p.2.map (fun v => (monthStartOfIdx p.1, v))) ∘
          (fun q : (Nat × ℚ) × Nat × ℚ =>
            (q.2.1, some (pctQ q.1.2 q.2.2)))) =
          fun q : (Nat × ℚ) × Nat × ℚ =>
            some (monthStartOfIdx q.2.1, pctQ q.1.2 q.2.2) :=
        funext (fun q => rfl)
      rw [hcomp, filterMap_some_eq_map]
      show ((((m0 :: tl).map (fun mi => (mi, lastPriceD rows mi))).zip
          (tl.map (fun mi => (mi, lastPriceD rows mi)))).map _) = _
      rw [List.zip_map, List.map_map]
      rfl

/-- In a chronologically ordered table the head's month bounds every row's
month from below. -/
theorem mono_head_le {α : Type} :
    ∀ {rows : List (Date × α)},
      List.Chain' (fun a b : Date × α => a.1.monthIdx ≤ b.1.monthIdx) rows →
      ∀ {a}, rows.head? = some a → ∀ r ∈ rows, a.1.monthIdx ≤ r.1.monthIdx
  | [], _, _, ha => by cases ha
  | x :: rest, hc, a, ha => by
      intro r hr
      have hax : x = a := by simpa using ha
      subst hax
      rcases List.mem_cons.mp hr with hr | hr
      · exact hr ▸ Nat.le_refl _
      · cases rest with
        | nil => cases hr
        | cons y rest2 =>
            have hxy : x.1.monthIdx ≤ y.1.monthIdx :=
              (List.chain'_cons.mp hc).1
            have hy : y.1.monthIdx ≤ r.1.monthIdx :=
              mono_head_le (List.chain'_cons.mp hc).2 rfl r hr
            exact Nat.le_trans hxy hy

/-- In a chronologically ordered table the last row's month bounds every
row's month from above. -/
theorem mono_le_last {α : Type} :
    ∀ {rows : List (Date × α)},
      List.Chain' (fun a b : Date × α => a.1.monthIdx ≤ b.1.monthIdx) rows →
      ∀ {b}, rows.getLast? = some b → ∀ r ∈ rows, r.1.monthIdx ≤ b.1.monthIdx
  | [], _, _, hb => by cases hb
  | x :: rest, hc, b, hb => by
      intro r hr
      cases rest with
      | nil =>
          have hxb : x = b := by simpa using hb
          have hrx : r = x := by simpa using hr
          exact hrx ▸ hxb ▸ Nat.le_refl _
      | cons y rest2 =>
          have hxy : x.1.monthIdx ≤ y.1.monthIdx :=
            (List.chain'_cons.mp hc).1
          have hb2 : (y :: rest2).getLast? = some b := by
            simpa [List.getLast?_cons_cons] using hb
          have hy := mono_le_last (List.chain'_cons.mp hc).2 hb2
          rcases List.mem_cons.mp hr with hr | hr
          · exact hr ▸ Nat.le_trans hxy
              (hy y (List.mem_cons_self y rest2))
          · exact hy r hr

/-- Under monotone dates and month contiguity, the observed months are
exactly the spanned months, so their counts agree. -/
theorem observedMonths_length_eq (rows : List (Date × ℚ)) (hne : rows ≠ [])
    (hmono : List.Chain'
      (fun a b : Date × ℚ => a.1.monthIdx ≤ b.1.monthIdx) rows)
    (hcontig : ∀ mi ∈ spanMonths rows, ∃ r ∈ rows, r.1.monthIdx = mi) :
    (observedMonths rows).length = (spanMonths rows).length := by
  cases hrows : rows with
  | nil => exact absurd hrows hne
  | cons x rest =>
      subst hrows
      obtain ⟨b, hb⟩ := Option.isSome_iff_exists.mp
        (List.getLast?_isSome.mpr (List.cons_ne_nil x rest))
      have hspan : spanMonths (x :: rest) =
          List.range' x.1.monthIdx
            (b.1.monthIdx - x.1.monthIdx + 1) := by
        unfold spanMonths
        rw [hb]
        rfl
      have hmem : ∀ mi : Nat,
          mi ∈ (x :: rest).map (fun r => r.1.monthIdx) ↔
          mi ∈ spanMonths (x :: rest) := by
        intro mi
        rw [hspan, List.mem_range'_1]
        constructor
        · intro h
          obtain ⟨r, hr, hmi⟩ := List.mem_map.mp h
          subst hmi
          refine ⟨mono_head_le hmono rfl r hr, ?_⟩
          have := mono_le_last hmono hb r hr
          omega
        · intro h
          obtain ⟨r, hr, hmi⟩ := hcontig mi (by
            rw [hspan, List.mem_range'_1]
            exact h)
          exact List.mem_map.mpr ⟨r, hr, hmi⟩
      have hfin : ((x :: rest).map (fun r => r.1.monthIdx)).toFinset =
          (spanMonths (x :: rest)).toFinset := by
        ext mi
        simp only [List.mem_toFinset]
        exact hmem mi
      have h1 : (observedMonths (x :: rest)).length =
          ((x :: rest).map (fun r => r.1.monthIdx)).toFinset.card := by
        unfold observedMonths
        rw [List.card_toFinset]
      have h2 : (spanMonths (x :: rest)).toFinset.card =
          (spanMonths (x :: rest)).length := by
        rw [List.card_toFinset]
        congr 1
        apply List.Nodup.dedup
        rw [hspan]
        exact List.nodup_range' _ _ 1 Nat.one_pos
      rw [h1, hfin, h2]

/-- C1, counterexample: the claim gives a series observed in two months
(January and March 2023, nothing in February) exactly one return entry; the
resampler emits a February bin, `pct_change` forward-fills it, and the
result has two entries - a 0% February return and a March return computed
against January's price. -/
theorem c1_gap_month_counterexample :
    (observedMonths [((⟨2023, 1, 10⟩ : Date), (100 : ℚ)),
        (⟨2023, 3, 10⟩, 110)]).length = 2 ∧
    (monthlySeries [((⟨2023, 1, 10⟩ : Date), (100 : ℚ)),
        (⟨2023, 3, 10⟩, 110)]).length = 2 ∧
    monthlySeries [((⟨2023, 1, 10⟩ : Date), (100 : ℚ)),
        (⟨2023, 3, 10⟩, 110)] =
      [(⟨2023, 2, 1⟩, 0), (⟨2023, 3, 1⟩, 1 / 10)] := by
  refine ⟨by decide, by decide, ?_⟩
  norm_num [monthlySeries, monthlyFrom, resampleLast, spanMonths,
    lastInMonth, padRows, pctRows, pctGo, monthStartOfIdx, pctQ,
    Date.monthIdx, List.range', List.filterMap_cons]

/-- C1, amended: for a chronologically ordered price series whose observed
months are contiguous (every month between the first and last observation
has data) and whose prices are positive, the monthly return series has
exactly (observed months - 1) entries, the entry for each month being the
relative change of that month's last price against the previous month's
last price, stamped on the first day of the month; a series confined to a
single calendar month (fewer than two observed months) yields an empty
series rather than an error. For a series with gap months the resampler
forward-fills and the count grows to (spanned months - 1) instead. -/
theorem c1_monthly_return_shape :
    (∀ rows : List (Date × ℚ), rows ≠ [] →
       List.Chain' (fun a b : Date × ℚ => a.1.monthIdx ≤ b.1.monthIdx) rows →
       (∀ mi ∈ spanMonths rows, ∃ r ∈ rows, r.1.monthIdx = mi) →
       2 ≤ (observedMonths rows).length →
       (∀ r ∈ rows, 0 < r.2) →
       (monthlySeries rows).length + 1 = (observedMonths rows).length ∧
       monthlySeries rows =
         ((spanMonths rows).zip (spanMonths rows).tail).map
           (fun q => (monthStartOfIdx q.2,
             (lastPriceD rows q.2 - lastPriceD rows q.1) /
               lastPriceD rows q.1))) ∧
    (∀ rows : List (Date × ℚ),
       (∀ r ∈ rows, ∀ u ∈ rows, r.1.monthIdx = u.1.monthIdx) →
       monthlySeries rows = []) := by
  constructor
  · intro rows hne hmono hcontig h2 hpos
    have heq := monthlySeries_eq rows hne hcontig
    have hlen := observedMonths_length_eq rows hne hmono hcontig
    constructor
    · rw [heq, hlen, List.length_map, List.length_zip, List.length_tail]
      have hS : spanMonths rows ≠ [] := spanMonths_ne_nil hne
      have h1 : 1 ≤ (spanMonths rows).length := List.length_pos.mpr hS
      omega
    · rw [heq]
      rfl
  · intro rows hone
    cases rows with
    | nil => rfl
    | cons r rest =>
        obtain ⟨b, hb⟩ := Option.isSome_iff_exists.mp
          (List.getLast?_isSome.mpr (List.cons_ne_nil r rest))
        have hbmem : b ∈ r :: rest := List.mem_of_mem_getLast? hb
        have hmi : b.1.monthIdx = r.1.monthIdx :=
          hone b hbmem r (List.mem_cons_self r rest)
        have hspan : spanMonths (r :: rest) = [r.1.monthIdx] := by
          unfold spanMonths
          rw [hb]
          show List.range' r.1.monthIdx (b.1.monthIdx - r.1.monthIdx + 1) = _
          rw [hmi, Nat.sub_self]
          exact List.range'_one
        unfold monthlySeries monthlyFrom resampleLast
        rw [hspan]
        simp only [List.map_cons, List.map_nil]
        cases ho : lastInMonth (r :: rest) r.1.monthIdx with
        | none => rfl
        | some v => rfl

/-- C1, witness: two contiguous observed months give one return entry, and
a series confined to May 2023 gives an empty series. -/
theorem c1_witness :
    (monthlySeries [((⟨2023, 1, 5⟩ : Date), (100 : ℚ)),
        (⟨2023, 2, 7⟩, 110)]).length + 1 =
      (observedMonths [((⟨2023, 1, 5⟩ : Date), (100 : ℚ)),
        (⟨2023, 2, 7⟩, 110)]).length ∧
    monthlySeries [((⟨2023, 5, 2⟩ : Date), (3 : ℚ)), (⟨2023, 5, 9⟩, 4)] =
      [] :=
  ⟨(c1_monthly_return_shape.1 _ (by decide)
      (List.chain'_cons.mpr ⟨by decide, List.chain'_singleton _⟩)
      (by decide) (by decide) (by decide)).1,
   c1_monthly_return_shape.2 _ (by decide)⟩
